import Mathlib

/-!
Verification of `catalyst/data/sampler.py`.

This file shallowly embeds the four index samplers of the repository —
`BalanceClassSampler`, `MiniEpochSampler`, `DynamicLenBatchSampler` and
`DistributedSamplerWrapper` — as executable Lean definitions, and proves or
refutes the behavioural claims made about them.

Randomness convention: the numpy / torch random primitives
(`np.random.choice`, `np.random.shuffle`, `torch.randperm`) are passed in as
explicit parameters; theorems quantify over all of their outcomes satisfying
the primitive's contract (a draw of the requested size from the given pool, a
permutation of the given array).
-/

namespace Catalyst

/-! ## BalanceClassSampler -/

/-- `self.lbl2idx[l] = np.arange(len(labels))[labels == l].tolist()`:
the positions of the dataset indices whose label is `l`, in ascending order. -/
def bucket (labels : List Int) (l : Int) : List Nat :=
  (List.range labels.length).filter (fun i => decide (labels[i]? = some l))

/-- Insertion step of the ascending sort below. -/
def insertSorted (x : Int) : List Int → List Int
  | [] => [x]
  | y :: t => if x ≤ y then x :: y :: t else y :: insertSorted x t

/-- An ascending insertion sort (structurally recursive, so it evaluates by
`rfl`/`decide`), playing the role of Python's `sorted`. -/
def sortInts (l : List Int) : List Int := l.foldr insertSorted []

/-- `sorted(set(labels))`: the distinct labels, in ascending order.  (`__init__`
iterates `set(labels)` and `__iter__` iterates `sorted(self.lbl2idx)`; only the
set of labels and its size matter to the constructed state.) -/
def distinctLabels (labels : List Int) : List Int :=
  sortInts labels.dedup

/-- The values of the dict `{label: (labels == label).sum() for label in set(labels)}`:
the occurrence count of each distinct label. -/
def classCounts (labels : List Int) : List Nat :=
  (distinctLabels labels).map (fun l => labels.count l)

/-- The Python argument `mode: Union[str, int]`.  (Only non-negative integer
modes are modelled; a negative sample count is meaningless to `np.random.choice`.) -/
inductive ModeArg
  | str (s : String)
  | int (n : Nat)
deriving DecidableEq, Repr

/-- The state `BalanceClassSampler.__init__` leaves behind: the label list
(from which `lbl2idx` is recomputed by `bucket`), the resolved
`samples_per_class` and the resolved `length`. -/
structure BalanceClassSampler where
  labels : List Int
  samples_per_class : Nat
  length : Nat
deriving DecidableEq, Repr

/-- `BalanceClassSampler.__init__`.  A string mode outside
`["downsampling", "upsampling"]` hits `assert mode in [...]` and raises; an
integer mode is taken verbatim; `"upsampling"` resolves to
`max(samples_per_class.values())` and `"downsampling"` to the minimum.
(Python's `max`/`min` raise on an empty label list; the theorems below always
assume a non-empty one, so the `getD 0` default is never exercised.) -/
def mkBalanceClassSampler (labels : List Int) (mode : ModeArg) :
    Except String BalanceClassSampler :=
  let counts := classCounts labels
  match mode with
  | .int n =>
      .ok { labels := labels, samples_per_class := n,
            length := n * (distinctLabels labels).length }
  | .str s =>
      if s = "downsampling" ∨ s = "upsampling" then
        let spc := if s = "upsampling" then (counts.max?).getD 0 else (counts.min?).getD 0
        .ok { labels := labels, samples_per_class := spc,
              length := spc * (distinctLabels labels).length }
      else .error "AssertionError: mode must be one of [downsampling, upsampling]"

/-- `replace_ = self.samples_per_class > len(self.lbl2idx[key])`. -/
def replaceFlag (labels : List Int) (spc : Nat) (l : Int) : Bool :=
  decide ((bucket labels l).length < spc)

/-- `BalanceClassSampler.__iter__`: for each distinct label in ascending order,
draw `samples_per_class` indices from its bucket (`np.random.choice`, with the
`replace_` flag computed per label), concatenate, then `np.random.shuffle` the
concatenation.  `choice b n r` stands for `np.random.choice(b, n, replace=r)`
and `shuffle` for the final `np.random.shuffle`. -/
def iterIndices (labels : List Int) (spc : Nat)
    (choice : List Nat → Nat → Bool → List Nat)
    (shuffle : List Nat → List Nat) : List Nat :=
  shuffle ((distinctLabels labels).flatMap
    (fun l => choice (bucket labels l) spc (replaceFlag labels spc l)))

/-- A concrete resolution of `np.random.choice(b, n, replace=r)` used by the
witnesses: pick elements of `b` cyclically. -/
def cyclicChoice (b : List Nat) (n : Nat) (_ : Bool) : List Nat :=
  (List.range n).map (fun i => b.getD (i % b.length) 0)

/-! ## MiniEpochSampler -/

/-- The attributes `MiniEpochSampler.__init__` leaves behind.  `base` is
`self._indices` (the numpy array `np.arange(data_len)`, possibly shuffled in
place) and `indices` is `self.indices` (either that same array or a
with-replacement redraw). -/
structure MiniEpochSampler where
  data_len : Nat
  mini_epoch_len : Nat
  shuffle_type : Option String
  steps : Nat
  divider : Nat
  end_pointer : Nat
  state_i : Nat
  base : List Nat
  indices : List Nat
deriving DecidableEq, Repr

/-- `MiniEpochSampler.__init__`.  `steps = int(data_len / mini_epoch_len)`,
`divider` as in the source, `end_pointer = max(data_len, mini_epoch_len)`,
and a `ValueError` for a shuffle string outside
`[None, "per_mini_epoch", "per_epoch"]`.  (Python raises `ZeroDivisionError`
for `mini_epoch_len = 0`; every theorem below assumes `1 ≤ mini_epoch_len`.) -/
def mkMiniEpochSampler (data_len mini_epoch_len : Nat) (drop_last : Bool)
    (shuffle : Option String) : Except String MiniEpochSampler :=
  let steps := data_len / mini_epoch_len
  let has_reminder := 0 < data_len - steps * mini_epoch_len
  let divider :=
    if steps = 0 then 1
    else if has_reminder ∧ drop_last = false then steps + 1
    else steps
  if shuffle = Option.none ∨ shuffle = some "per_mini_epoch" ∨ shuffle = some "per_epoch" then
    .ok { data_len := data_len, mini_epoch_len := mini_epoch_len,
          shuffle_type := shuffle, steps := steps, divider := divider,
          end_pointer := max data_len mini_epoch_len, state_i := 0,
          base := List.range data_len, indices := List.range data_len }
  else
    .error "ValueError: Shuffle must be one of [per_mini_epoch, per_epoch]"

/-- `MiniEpochSampler.shuffle()`.  When the policy fires: if
`data_len >= mini_epoch_len`, `self.indices = self._indices` followed by the
in-place `np.random.shuffle` turns both into the permutation `perm`; otherwise
`self.indices = np.random.choice(self._indices, mini_epoch_len, replace=True)`,
supplied here as `draw`. -/
def shuffleStep (s : MiniEpochSampler) (perm draw : List Nat) : MiniEpochSampler :=
  if s.shuffle_type = some "per_mini_epoch" ∨
      (s.shuffle_type = some "per_epoch" ∧ s.state_i = 0) then
    if s.mini_epoch_len ≤ s.data_len then
      { s with base := perm, indices := perm }
    else
      { s with indices := draw }
  else s

/-- `MiniEpochSampler.__iter__`: reduce the cursor modulo `divider`, apply the
shuffle policy, slice `self.indices[start:stop]` (numpy slicing clamps `stop`
to the array length, hence `drop`/`take`), then advance the cursor by one.
Returns the new state and the emitted window. -/
def iterStep (s : MiniEpochSampler) (perm draw : List Nat) :
    MiniEpochSampler × List Nat :=
  let s0 := { s with state_i := s.state_i % s.divider }
  let s1 := shuffleStep s0 perm draw
  let start := s1.state_i * s1.mini_epoch_len
  let stop := if s1.state_i = s1.steps then s1.end_pointer
              else (s1.state_i + 1) * s1.mini_epoch_len
  ({ s1 with state_i := s1.state_i + 1 }, (s1.indices.drop start).take (stop - start))

/-- A run of consecutive `__iter__` calls; `rands` supplies one
`(perm, draw)` pair of random outcomes per call.  Returns the final state and
the emitted windows in order. -/
def runIter (s : MiniEpochSampler) (rands : List (List Nat × List Nat)) :
    MiniEpochSampler × List (List Nat) :=
  match rands with
  | [] => (s, [])
  | r :: rs =>
    let step := iterStep s r.1 r.2
    let rest := runIter step.1 rs
    (rest.1, step.2 :: rest.2)

/-- The cursor positions (the value `state_i % divider` in effect when the
slice of each `__iter__` call is taken) along a run of consecutive calls. -/
def posTrace (s : MiniEpochSampler) (rands : List (List Nat × List Nat)) :
    List Nat :=
  match rands with
  | [] => []
  | r :: rs => (s.state_i % s.divider) :: posTrace (iterStep s r.1 r.2).1 rs

/-- The slice `indices[start:stop]` emitted by `__iter__` at cursor position
`i` over the un-shuffled index array `np.arange(data_len)` (the `shuffle=None`
case, where `self.indices` never changes). -/
def windowAt (data_len mini_epoch_len steps end_pointer i : Nat) : List Nat :=
  let start := i * mini_epoch_len
  let stop := if i = steps then end_pointer else (i + 1) * mini_epoch_len
  ((List.range data_len).drop start).take (stop - start)

/-! ## DynamicLenBatchSampler -/

/-- `count_zeros = int(torch.sum(self.sampler.data_source[idx][0] == 0) / 64)`:
the bucket key derived from the element's zero count. -/
def bucketKey (zeros : Nat) : Nat := zeros / 64

/-- One step of the streaming loop of `DynamicLenBatchSampler.__iter__`.
State is `(buckets, batches emitted so far)`.  `zeros idx` is the zero count
of element `idx` of the wrapped data source.  `buckets[count_zeros]` raises
`IndexError` when the key is out of range (`buckets` has exactly 100 cells).
Value-wise the buckets are independent lists: `buckets = [[]] * 100` aliases
one shared empty list, but the guard `if len(buckets[k]) == 0:
buckets[k] = []` installs a fresh list before any append ever reaches a
still-shared (hence empty) cell, so the shared list stays empty forever. -/
def dlStep (batch_size : Nat) (zeros : Nat → Nat)
    (st : List (List Nat) × List (List Nat)) (idx : Nat) :
    Except String (List (List Nat) × List (List Nat)) :=
  let key := bucketKey (zeros idx)
  if key < st.1.length then
    let b := st.1.getD key [] ++ [idx]
    if b.length = batch_size then .ok (st.1.set key [], st.2 ++ [b])
    else .ok (st.1.set key b, st.2)
  else .error "IndexError"

/-- The streaming loop of `__iter__`: fold `dlStep` over the wrapped sampler's
index stream, stopping at the first `IndexError` (as the raised exception
aborts the Python generator). -/
def dlRun (batch_size : Nat) (zeros : Nat → Nat)
    (st : List (List Nat) × List (List Nat)) :
    List Nat → Except String (List (List Nat) × List (List Nat))
  | [] => .ok st
  | i :: t =>
    match dlStep batch_size zeros st i with
    | .error e => .error e
    | .ok st' => dlRun batch_size zeros st' t

/-- One step of the leftover re-chunking loop of `__iter__`: append to
`batch`, emit it whenever it reaches `batch_size`.  State is
(emitted full batches, current partial batch). -/
def chunkStep (batch_size : Nat) (acc : List (List Nat) × List Nat)
    (idx : Nat) : List (List Nat) × List Nat :=
  let batch := acc.2 ++ [idx]
  if batch.length = batch_size then (acc.1 ++ [batch], []) else (acc.1, batch)

/-- The leftover re-chunking loop of `__iter__`.  Returns (emitted full
batches, trailing partial batch). -/
def leftoverChunks (batch_size : Nat) (leftover : List Nat) :
    List (List Nat) × List Nat :=
  leftover.foldl (chunkStep batch_size) ([], [])

/-- `DynamicLenBatchSampler.__iter__` end to end: stream the wrapped sampler's
indices `idxs` through the buckets, then flatten the leftover buckets
(`[idx for bucket in buckets for idx in bucket]`) and re-chunk, emitting the
trailing partial batch only when `drop_last` is false. -/
def dynamicIter (batch_size : Nat) (drop_last : Bool) (zeros : Nat → Nat)
    (idxs : List Nat) : Except String (List (List Nat)) :=
  match dlRun batch_size zeros (List.replicate 100 [], []) idxs with
  | .error e => .error e
  | .ok st =>
    let chunked := leftoverChunks batch_size st.1.flatten
    let final := if 0 < chunked.2.length ∧ drop_last = false
                 then chunked.1 ++ [chunked.2] else chunked.1
    .ok (st.2 ++ final)

/-- `len(self)` as inherited from `torch.utils.data.BatchSampler`:
`len(sampler) // batch_size` when dropping the last batch, else
`(len(sampler) + batch_size - 1) // batch_size`.  `n` is the wrapped
sampler's length, i.e. the number of indices one pass streams. -/
def dynamicLen (batch_size : Nat) (drop_last : Bool) (n : Nat) : Nat :=
  if drop_last then n / batch_size else (n + batch_size - 1) / batch_size

/-! ## DistributedSamplerWrapper -/

/-- Modelled from the spec: the position sequence built by
`torch.utils.data.DistributedSampler.__iter__` (not part of this repository)
over the materialized wrapped-sampler output of length `len` — the positions
`0..len-1` in the (possibly shuffled) order `perm`, padded by repetition from
the head so that the total is evenly divisible by `num_replicas`
(`total_size = ceil(len / num_replicas) * num_replicas`). -/
def paddedPositions (len num_replicas : Nat) (perm : List Nat) : List Nat :=
  let num_samples := (len + num_replicas - 1) / num_replicas
  let total_size := num_samples * num_replicas
  perm ++ perm.take (total_size - len)

/-- The strided slice `xs[rank : rank + count*step : step]`. -/
def strideSelect (rank step count : Nat) (xs : List Nat) : List Nat :=
  (List.range count).map (fun k => xs.getD (rank + k * step) 0)

/-- Modelled from the spec: the positions
`indices[rank : total_size : num_replicas]` that
`torch.utils.data.DistributedSampler` assigns to one replica — every
`num_replicas`-th padded position starting at offset `rank`, which is
`ceil(len / num_replicas)` positions. -/
def distributedPositions (len num_replicas rank : Nat) (perm : List Nat) :
    List Nat :=
  strideSelect rank num_replicas ((len + num_replicas - 1) / num_replicas)
    (paddedPositions len num_replicas perm)

/-- `DistributedSamplerWrapper.__iter__`: materialize the wrapped sampler's
pass into `vals` (the `DatasetFromSampler(self.sampler)` of the repository,
modelled from the spec as the ordered list of sampled values), obtain this
rank's positions from the parent `DistributedSampler`, and return
`iter(itemgetter(*positions)(vals))`.  `operator.itemgetter` with one argument
returns the single element itself — a scalar, on which `iter(...)` raises
`TypeError`; with no argument `itemgetter()` itself raises `TypeError`. -/
def wrapperIter (vals : List Nat) (num_replicas rank : Nat) (perm : List Nat) :
    Except String (List Nat) :=
  match distributedPositions vals.length num_replicas rank perm with
  | [] => .error "TypeError"
  | [_] => .error "TypeError"
  | ps => .ok (ps.map (fun p => vals.getD p 0))

/-! ## Helper lemmas: BalanceClassSampler -/

theorem mem_bucket {labels : List Int} {l : Int} {i : Nat} :
    i ∈ bucket labels l ↔ labels[i]? = some l := by
  constructor
  · intro h
    simpa using (List.mem_filter.mp h).2
  · intro h
    refine List.mem_filter.mpr ⟨List.mem_range.mpr ?_, by simpa using h⟩
    rcases List.getElem?_eq_some_iff.mp h with ⟨hlt, -⟩
    exact hlt

theorem length_bucket_eq_count (labels : List Int) (l : Int) :
    (bucket labels l).length = labels.count l := by
  induction labels with
  | nil => rfl
  | cons a t ih =>
    have hmap : List.filter (fun i => decide ((a :: t)[i]? = some l))
          ((List.range t.length).map Nat.succ)
        = ((List.range t.length).filter (fun i => decide (t[i]? = some l))).map
            Nat.succ := by
      have hfun : ((fun i => decide ((a :: t)[i]? = some l)) ∘ Nat.succ)
          = fun i => decide (t[i]? = some l) := by
        funext i
        simp [Function.comp]
      rw [List.filter_map, hfun]
    show (List.filter _ (List.range (a :: t).length)).length = _
    rw [List.length_cons, List.range_succ_eq_map, List.filter_cons, hmap]
    by_cases hal : a = l
    · simp only [List.getElem?_cons_zero]
      rw [List.count_cons]
      simp [hal, ← ih, bucket, Nat.add_comm]
    · simp only [List.getElem?_cons_zero]
      rw [List.count_cons]
      simp [hal, ← ih, bucket]

theorem insertSorted_perm (x : Int) (l : List Int) :
    List.Perm (insertSorted x l) (x :: l) := by
  induction l with
  | nil => exact List.Perm.refl _
  | cons y t ih =>
    unfold insertSorted
    by_cases h : x ≤ y
    · rw [if_pos h]
    · rw [if_neg h]
      exact (ih.cons y).trans (List.Perm.swap x y t)

theorem sortInts_perm (l : List Int) : List.Perm (sortInts l) l := by
  induction l with
  | nil => exact List.Perm.refl _
  | cons a t ih => exact (insertSorted_perm a (sortInts t)).trans (ih.cons a)

theorem mem_distinctLabels {labels : List Int} {l : Int} :
    l ∈ distinctLabels labels ↔ l ∈ labels := by
  unfold distinctLabels
  rw [(sortInts_perm _).mem_iff, List.mem_dedup]

theorem nodup_distinctLabels (labels : List Int) : (distinctLabels labels).Nodup :=
  ((sortInts_perm _).nodup_iff).mpr labels.nodup_dedup

theorem bucket_ne_nil_of_mem {labels : List Int} {l : Int} (h : l ∈ labels) :
    bucket labels l ≠ [] := by
  rcases List.mem_iff_getElem?.mp h with ⟨i, hi⟩
  intro hnil
  have hmem : i ∈ bucket labels l := mem_bucket.mpr hi
  simp [hnil] at hmem

theorem distinctLabels_ne_nil {labels : List Int} (h : labels ≠ []) :
    distinctLabels labels ≠ [] := by
  match labels, h with
  | a :: t, _ =>
    intro hnil
    have hmem : a ∈ distinctLabels (a :: t) := mem_distinctLabels.mpr (by simp)
    simp [hnil] at hmem

theorem sum_map_const {α : Type} (l : List α) (c : Nat) :
    (l.map (fun _ => c)).sum = l.length * c := by
  induction l with
  | nil => simp
  | cons a t ih => simp [ih, Nat.succ_mul, Nat.add_comm]

theorem sum_map_ite_eq {l : List Int} (hnd : l.Nodup) {x : Int} (hx : x ∈ l)
    (v : Nat) : (l.map (fun y => if y = x then v else 0)).sum = v := by
  induction l with
  | nil => cases hx
  | cons a t ih =>
    rcases List.mem_cons.mp hx with rfl | hxt
    · have hnot : x ∉ t := (List.nodup_cons.mp hnd).1
      have hz : (t.map (fun y => if y = x then v else 0)).sum = 0 := by
        apply List.sum_eq_zero
        intro z hz
        rcases List.mem_map.mp hz with ⟨y, hy, rfl⟩
        have : y ≠ x := fun h => hnot (h ▸ hy)
        simp [this]
      simp [hz]
    · have hax : a ≠ x := by
        rintro rfl
        exact (List.nodup_cons.mp hnd).1 hxt
      simp [hax, ih (List.nodup_cons.mp hnd).2 hxt]

theorem cyclicChoice_spec (b : List Nat) (n : Nat) (r : Bool) (hb : b ≠ []) :
    (cyclicChoice b n r).length = n ∧ ∀ x ∈ cyclicChoice b n r, x ∈ b := by
  constructor
  · simp [cyclicChoice]
  · intro x hx
    rcases List.mem_map.mp hx with ⟨i, -, rfl⟩
    have hlen : 0 < b.length := List.length_pos.mpr hb
    have hlt : i % b.length < b.length := Nat.mod_lt _ hlen
    rw [List.getD_eq_getElem _ _ hlt]
    exact List.getElem_mem hlt

/-- Whatever mode produced it, a constructed sampler's resolved `length` is
`samples_per_class * (number of distinct labels)`. -/
theorem mk_balance_length {labels : List Int} {mode : ModeArg}
    {S : BalanceClassSampler} (hS : mkBalanceClassSampler labels mode = .ok S) :
    S.length = S.samples_per_class * (distinctLabels labels).length := by
  unfold mkBalanceClassSampler at hS
  cases mode with
  | int n => cases hS; rfl
  | str s =>
    by_cases hcond : s = "downsampling" ∨ s = "upsampling"
    · simp only [hcond, if_pos] at hS
      cases hS; rfl
    · simp [hcond] at hS

/-! ## Claim theorems: BalanceClassSampler -/

/-- **C7.** `BalanceClassSampler` resolves `samples_per_class` at construction
to the minimum class-bucket size when mode is the string `"downsampling"`, the
maximum class-bucket size when mode is the string `"upsampling"`, and exactly
the given integer when mode is an integer, regardless of the bucket sizes. -/
theorem balance_mode_resolution (labels : List Int) (hne : labels ≠ []) :
    (∃ S, mkBalanceClassSampler labels (.str "downsampling") = .ok S ∧
       (∃ l ∈ distinctLabels labels,
          S.samples_per_class = (bucket labels l).length) ∧
       ∀ l ∈ distinctLabels labels,
          S.samples_per_class ≤ (bucket labels l).length) ∧
    (∃ S, mkBalanceClassSampler labels (.str "upsampling") = .ok S ∧
       (∃ l ∈ distinctLabels labels,
          S.samples_per_class = (bucket labels l).length) ∧
       ∀ l ∈ distinctLabels labels,
          (bucket labels l).length ≤ S.samples_per_class) ∧
    ∀ n : Nat, ∃ S, mkBalanceClassSampler labels (.int n) = .ok S ∧
       S.samples_per_class = n := by
  have hdne : distinctLabels labels ≠ [] := distinctLabels_ne_nil hne
  have hcne : classCounts labels ≠ [] := by
    unfold classCounts
    simpa using hdne
  refine ⟨?_, ?_, ?_⟩
  · obtain ⟨m, hm⟩ : ∃ m, (classCounts labels).min? = some m := by
      cases hcc : classCounts labels with
      | nil => exact absurd hcc hcne
      | cons c cs => exact ⟨_, rfl⟩
    obtain ⟨hmem, hle⟩ := List.min?_eq_some_iff'.mp hm
    refine ⟨⟨labels, (classCounts labels).min?.getD 0,
        (classCounts labels).min?.getD 0 * (distinctLabels labels).length⟩,
      rfl, ?_, ?_⟩
    · rcases List.mem_map.mp hmem with ⟨l, hl, hval⟩
      refine ⟨l, hl, ?_⟩
      simp only [hm, Option.getD_some]
      rw [length_bucket_eq_count, hval]
    · intro l hl
      have : labels.count l ∈ classCounts labels := List.mem_map.mpr ⟨l, hl, rfl⟩
      simp only [hm, Option.getD_some]
      rw [length_bucket_eq_count]
      exact hle _ this
  · obtain ⟨m, hm⟩ : ∃ m, (classCounts labels).max? = some m := by
      cases hcc : classCounts labels with
      | nil => exact absurd hcc hcne
      | cons c cs => exact ⟨_, rfl⟩
    obtain ⟨hmem, hle⟩ := List.max?_eq_some_iff'.mp hm
    refine ⟨⟨labels, (classCounts labels).max?.getD 0,
        (classCounts labels).max?.getD 0 * (distinctLabels labels).length⟩,
      rfl, ?_, ?_⟩
    · rcases List.mem_map.mp hmem with ⟨l, hl, hval⟩
      refine ⟨l, hl, ?_⟩
      simp only [hm, Option.getD_some]
      rw [length_bucket_eq_count, hval]
    · intro l hl
      have : labels.count l ∈ classCounts labels := List.mem_map.mpr ⟨l, hl, rfl⟩
      simp only [hm, Option.getD_some]
      rw [length_bucket_eq_count]
      exact hle _ this
  · intro n
    exact ⟨_, rfl, rfl⟩

/-- Witness for C7 at `labels = [7, 3, 7, 3, 3]`. -/
theorem balance_mode_resolution_witness :
    ([7, 3, 7, 3, 3] : List Int) ≠ [] ∧
    ((∃ S, mkBalanceClassSampler [7, 3, 7, 3, 3] (.str "downsampling") = .ok S ∧
       (∃ l ∈ distinctLabels [7, 3, 7, 3, 3],
          S.samples_per_class = (bucket [7, 3, 7, 3, 3] l).length) ∧
       ∀ l ∈ distinctLabels [7, 3, 7, 3, 3],
          S.samples_per_class ≤ (bucket [7, 3, 7, 3, 3] l).length) ∧
    (∃ S, mkBalanceClassSampler [7, 3, 7, 3, 3] (.str "upsampling") = .ok S ∧
       (∃ l ∈ distinctLabels [7, 3, 7, 3, 3],
          S.samples_per_class = (bucket [7, 3, 7, 3, 3] l).length) ∧
       ∀ l ∈ distinctLabels [7, 3, 7, 3, 3],
          (bucket [7, 3, 7, 3, 3] l).length ≤ S.samples_per_class) ∧
    ∀ n : Nat, ∃ S, mkBalanceClassSampler [7, 3, 7, 3, 3] (.int n) = .ok S ∧
       S.samples_per_class = n) :=
  ⟨by decide, balance_mode_resolution [7, 3, 7, 3, 3] (by decide)⟩

/-- **C1.** For every non-empty label list and every resolved mode:
`__len__()` equals `samples_per_class` times the number of distinct labels;
every sequence produced by `__iter__()` (for all outcomes of
`np.random.choice` and `np.random.shuffle` meeting their contracts) has
exactly that length, with each distinct label contributing exactly
`samples_per_class` indices; and the per-class draw uses replacement exactly
when that label's bucket is smaller than `samples_per_class`. -/
theorem balance_class_pass (labels : List Int) (mode : ModeArg)
    (S : BalanceClassSampler) (hS : mkBalanceClassSampler labels mode = .ok S)
    (hne : labels ≠ [])
    (choice : List Nat → Nat → Bool → List Nat) (shuffle : List Nat → List Nat)
    (hchoice : ∀ b n r, b ≠ [] →
      (choice b n r).length = n ∧ ∀ x ∈ choice b n r, x ∈ b)
    (hshuffle : ∀ xs, List.Perm (shuffle xs) xs) :
    S.length = S.samples_per_class * (distinctLabels labels).length ∧
    (iterIndices labels S.samples_per_class choice shuffle).length = S.length ∧
    (∀ l ∈ distinctLabels labels,
      (iterIndices labels S.samples_per_class choice shuffle).countP
        (fun i => decide (labels[i]? = some l)) = S.samples_per_class) ∧
    ∀ l, replaceFlag labels S.samples_per_class l = true ↔
        (bucket labels l).length < S.samples_per_class := by
  have hlen := mk_balance_length hS
  have hblock : ∀ l ∈ distinctLabels labels,
      (choice (bucket labels l) S.samples_per_class
        (replaceFlag labels S.samples_per_class l)).length = S.samples_per_class ∧
      ∀ x ∈ choice (bucket labels l) S.samples_per_class
        (replaceFlag labels S.samples_per_class l), x ∈ bucket labels l := by
    intro l hl
    exact hchoice _ _ _ (bucket_ne_nil_of_mem (mem_distinctLabels.mp hl))
  refine ⟨hlen, ?_, ?_, ?_⟩
  · unfold iterIndices
    rw [(hshuffle _).length_eq, List.flatMap_def, List.length_flatten,
      List.map_map, hlen]
    have hconst : List.map (List.length ∘ fun l =>
          choice (bucket labels l) S.samples_per_class
            (replaceFlag labels S.samples_per_class l)) (distinctLabels labels)
        = List.map (fun _ => S.samples_per_class) (distinctLabels labels) := by
      apply List.map_congr_left
      intro l hl
      simpa using (hblock l hl).1
    rw [hconst, sum_map_const, Nat.mul_comm]
  · intro l hl
    unfold iterIndices
    rw [(hshuffle _).countP_eq, List.flatMap_def, List.countP_flatten,
      List.map_map]
    have hcountmap : List.map
          ((List.countP fun i => decide (labels[i]? = some l)) ∘ fun l' =>
            choice (bucket labels l') S.samples_per_class
              (replaceFlag labels S.samples_per_class l')) (distinctLabels labels)
        = List.map (fun l' => if l' = l then S.samples_per_class else 0)
            (distinctLabels labels) := by
      apply List.map_congr_left
      intro l' hl'
      simp only [Function.comp_apply]
      by_cases heq : l' = l
      · rw [if_pos heq]
        have hall : ∀ x ∈ choice (bucket labels l') S.samples_per_class
            (replaceFlag labels S.samples_per_class l'),
            (fun i => decide (labels[i]? = some l)) x = true := by
          intro x hx
          have hx' := mem_bucket.mp ((hblock l' hl').2 x hx)
          rw [heq] at hx'
          simpa using hx'
        exact (List.countP_eq_length.mpr hall).trans (hblock l' hl').1
      · rw [if_neg heq]
        apply List.countP_eq_zero.mpr
        intro x hx
        have hx' := mem_bucket.mp ((hblock l' hl').2 x hx)
        simp only [hx', decide_eq_true_eq, Option.some.injEq]
        exact fun h => heq h
    rw [hcountmap]
    exact sum_map_ite_eq (nodup_distinctLabels labels) hl S.samples_per_class
  · intro l
    simp [replaceFlag]

/-- Witness for C1 at `labels = [0, 0, 1]`, `mode = 2`, with the cyclic
resolution of `np.random.choice` and the identity resolution of
`np.random.shuffle`. -/
theorem balance_class_pass_witness :
    mkBalanceClassSampler [0, 0, 1] (.int 2) = .ok ⟨[0, 0, 1], 2, 4⟩ ∧
    ([0, 0, 1] : List Int) ≠ [] ∧
    ((⟨[0, 0, 1], 2, 4⟩ : BalanceClassSampler).length
        = (⟨[0, 0, 1], 2, 4⟩ : BalanceClassSampler).samples_per_class
          * (distinctLabels [0, 0, 1]).length ∧
     (iterIndices [0, 0, 1]
        (⟨[0, 0, 1], 2, 4⟩ : BalanceClassSampler).samples_per_class
        cyclicChoice id).length = (⟨[0, 0, 1], 2, 4⟩ : BalanceClassSampler).length ∧
     (∀ l ∈ distinctLabels [0, 0, 1],
       (iterIndices [0, 0, 1]
          (⟨[0, 0, 1], 2, 4⟩ : BalanceClassSampler).samples_per_class
          cyclicChoice id).countP
         (fun i => decide (([0, 0, 1] : List Int)[i]? = some l))
         = (⟨[0, 0, 1], 2, 4⟩ : BalanceClassSampler).samples_per_class) ∧
     ∀ l, replaceFlag [0, 0, 1]
          (⟨[0, 0, 1], 2, 4⟩ : BalanceClassSampler).samples_per_class l = true ↔
        (bucket [0, 0, 1] l).length
          < (⟨[0, 0, 1], 2, 4⟩ : BalanceClassSampler).samples_per_class) :=
  ⟨by rfl, by decide,
    balance_class_pass [0, 0, 1] (.int 2) ⟨[0, 0, 1], 2, 4⟩ (by rfl) (by decide)
      cyclicChoice id cyclicChoice_spec (fun xs => List.Perm.refl xs)⟩

/-- **C8.** Constructing `BalanceClassSampler` with a string mode outside
`{"downsampling", "upsampling"}`, and constructing `MiniEpochSampler` with a
shuffle string outside `{"per_mini_epoch", "per_epoch"}`, each fail
synchronously during construction — no sampler value is ever produced, so no
iteration can begin and no default configuration is fallen back to. -/
theorem construction_fail_fast (labels : List Int) (s : String)
    (hs1 : s ≠ "downsampling") (hs2 : s ≠ "upsampling")
    (data_len mini_epoch_len : Nat) (drop_last : Bool) (t : String)
    (ht1 : t ≠ "per_mini_epoch") (ht2 : t ≠ "per_epoch") :
    (mkBalanceClassSampler labels (.str s)).isOk = false ∧
    (mkMiniEpochSampler data_len mini_epoch_len drop_last (some t)).isOk
      = false := by
  constructor
  · have herr : mkBalanceClassSampler labels (.str s)
        = .error "AssertionError: mode must be one of [downsampling, upsampling]" := by
      simp only [mkBalanceClassSampler]
      rw [if_neg (by simp [hs1, hs2])]
    rw [herr]
    rfl
  · unfold mkMiniEpochSampler
    rw [if_neg (by simp [ht1, ht2])]
    rfl

/-- Witness for C8 at mode string `"always"` and shuffle string `"never"`. -/
theorem construction_fail_fast_witness :
    ("always" : String) ≠ "downsampling" ∧ ("always" : String) ≠ "upsampling" ∧
    ("never" : String) ≠ "per_mini_epoch" ∧ ("never" : String) ≠ "per_epoch" ∧
    ((mkBalanceClassSampler [5] (.str "always")).isOk = false ∧
     (mkMiniEpochSampler 4 2 false (some "never")).isOk = false) :=
  ⟨by decide, by decide, by decide, by decide,
    construction_fail_fast [5] "always" (by decide) (by decide) 4 2 false "never"
      (by decide) (by decide)⟩

/-! ## Helper lemmas: MiniEpochSampler -/

theorem shuffleStep_fields (s : MiniEpochSampler) (perm draw : List Nat) :
    (shuffleStep s perm draw).data_len = s.data_len ∧
    (shuffleStep s perm draw).mini_epoch_len = s.mini_epoch_len ∧
    (shuffleStep s perm draw).shuffle_type = s.shuffle_type ∧
    (shuffleStep s perm draw).steps = s.steps ∧
    (shuffleStep s perm draw).divider = s.divider ∧
    (shuffleStep s perm draw).end_pointer = s.end_pointer ∧
    (shuffleStep s perm draw).state_i = s.state_i := by
  unfold shuffleStep
  split
  · split
    · exact ⟨rfl, rfl, rfl, rfl, rfl, rfl, rfl⟩
    · exact ⟨rfl, rfl, rfl, rfl, rfl, rfl, rfl⟩
  · exact ⟨rfl, rfl, rfl, rfl, rfl, rfl, rfl⟩

theorem iterStep_state (s : MiniEpochSampler) (perm draw : List Nat) :
    (iterStep s perm draw).1.state_i = s.state_i % s.divider + 1 := by
  unfold iterStep
  have h := shuffleStep_fields { s with state_i := s.state_i % s.divider } perm draw
  simp only [h.2.2.2.2.2.2]

theorem iterStep_divider (s : MiniEpochSampler) (perm draw : List Nat) :
    (iterStep s perm draw).1.divider = s.divider := by
  unfold iterStep
  have h := shuffleStep_fields { s with state_i := s.state_i % s.divider } perm draw
  simp only [h.2.2.2.2.1]

/-- With shuffle policy `None`, `shuffle()` is a no-op, so one `__iter__` call
just slices the standing index array at the reduced cursor position. -/
theorem iterStep_none (s : MiniEpochSampler) (perm draw : List Nat)
    (hshuf : s.shuffle_type = Option.none) :
    iterStep s perm draw
      = ({ s with state_i := s.state_i % s.divider + 1 },
         (s.indices.drop (s.state_i % s.divider * s.mini_epoch_len)).take
           ((if s.state_i % s.divider = s.steps then s.end_pointer
             else (s.state_i % s.divider + 1) * s.mini_epoch_len)
            - s.state_i % s.divider * s.mini_epoch_len)) := by
  simp [iterStep, shuffleStep, hshuf]

/-- Membership in a clamped numpy-style slice of `np.arange(d)`. -/
theorem mem_drop_take_range {d a t x : Nat} :
    x ∈ ((List.range d).drop a).take t ↔ a ≤ x ∧ x < min (a + t) d := by
  constructor
  · intro hx
    rcases List.mem_iff_getElem.mp hx with ⟨i, hi, hval⟩
    have hlen : (((List.range d).drop a).take t).length = min t (d - a) := by
      simp [List.length_take, List.length_drop]
    rw [List.getElem_take, List.getElem_drop, List.getElem_range] at hval
    rw [hlen] at hi
    omega
  · rintro ⟨h1, h2⟩
    have hlen : (((List.range d).drop a).take t).length = min t (d - a) := by
      simp [List.length_take, List.length_drop]
    have hi : x - a < (((List.range d).drop a).take t).length := by omega
    apply List.mem_iff_getElem.mpr
    refine ⟨x - a, hi, ?_⟩
    rw [List.getElem_take, List.getElem_drop, List.getElem_range]
    omega

/-! ## Claim theorems: MiniEpochSampler, small dataset (C2) -/

/-- **C2 counterexample.** The claim says that for `data_len < mini_epoch_len`
*every* shuffle policy — including `shuffle=None` — makes `__iter__` return a
window resampled with replacement (hence of length `mini_epoch_len`).  With
`data_len = 2, mini_epoch_len = 3, shuffle=None`, `shuffle()` is a no-op and
the numpy slice `indices[0:3]` of the 2-element array clamps: the call returns
the shortened window `[0, 1]` of length `2 ≠ 3`, not a resampled one. -/
theorem miniEpoch_small_dataset_cex :
    (mkMiniEpochSampler 2 3 false Option.none).map
        (fun s => (iterStep s [] []).2) = .ok [0, 1] ∧ (2 : Nat) ≠ 3 :=
  ⟨rfl, by decide⟩

/-- **C2 (amended).** For a `MiniEpochSampler` state with
`data_len < mini_epoch_len` (hence `steps = 0`, `divider = 1`,
`end_pointer = mini_epoch_len`, as `__init__` sets them): when the shuffle
policy is `"per_mini_epoch"` or `"per_epoch"`, every `__iter__` call returns
exactly the with-replacement redraw of length `mini_epoch_len` from the whole
index universe; when the policy is `None`, the call raises no error but
returns the whole universe in order — a shortened window of length
`data_len`, not a resample. -/
theorem miniEpoch_small_dataset (s : MiniEpochSampler) (perm draw : List Nat)
    (hd : s.data_len < s.mini_epoch_len)
    (hsteps : s.steps = 0) (hdiv : s.divider = 1)
    (hep : s.end_pointer = s.mini_epoch_len) :
    ((s.shuffle_type = some "per_mini_epoch" ∨ s.shuffle_type = some "per_epoch") →
      draw.length = s.mini_epoch_len →
      (iterStep s perm draw).2 = draw) ∧
    (s.shuffle_type = Option.none → s.indices = List.range s.data_len →
      (iterStep s perm draw).2 = List.range s.data_len) := by
  constructor
  · intro hshuf hdraw
    rcases hshuf with h | h <;>
    · simp [iterStep, shuffleStep, h, hdiv, hsteps, hep, Nat.mod_one,
        Nat.not_le.mpr hd]
      omega
  · intro hshuf hind
    rw [iterStep_none s perm draw hshuf]
    simp only [hdiv, Nat.mod_one, hsteps, if_pos rfl, hep, hind,
      Nat.zero_mul, Nat.sub_zero, List.drop_zero, if_true]
    rw [List.take_range, Nat.min_eq_right (Nat.le_of_lt hd)]

/-- Witness for the amended C2 at `data_len = 2, mini_epoch_len = 3`, in the
`"per_mini_epoch"` state produced by `__init__`, with redraw `[1, 0, 1]`. -/
theorem miniEpoch_small_dataset_witness :
    ((2 : Nat) < 3 ∧ (0 : Nat) = 0 ∧ (1 : Nat) = 1 ∧ (3 : Nat) = 3) ∧
    (((some "per_mini_epoch" = some "per_mini_epoch" ∨
        (some "per_mini_epoch" : Option String) = some "per_epoch") →
      ([1, 0, 1] : List Nat).length = 3 →
      (iterStep ⟨2, 3, some "per_mini_epoch", 0, 1, 3, 0, [0, 1], [0, 1]⟩
        [1, 0] [1, 0, 1]).2 = [1, 0, 1]) ∧
     ((some "per_mini_epoch" : Option String) = Option.none →
      ([0, 1] : List Nat) = List.range 2 →
      (iterStep ⟨2, 3, some "per_mini_epoch", 0, 1, 3, 0, [0, 1], [0, 1]⟩
        [1, 0] [1, 0, 1]).2 = List.range 2)) :=
  ⟨⟨by decide, rfl, rfl, rfl⟩,
    miniEpoch_small_dataset ⟨2, 3, some "per_mini_epoch", 0, 1, 3, 0, [0, 1], [0, 1]⟩
      [1, 0] [1, 0, 1] (by decide) rfl rfl rfl⟩

/-- The cursor position of the `k`-th of a run of consecutive `__iter__`
calls advances by one modulo `divider` per call. -/
theorem posTrace_eq (s : MiniEpochSampler) (rands : List (List Nat × List Nat)) :
    posTrace s rands
      = (List.range rands.length).map (fun k => (s.state_i + k) % s.divider) := by
  induction rands generalizing s with
  | nil => rfl
  | cons r rs ih =>
    show (s.state_i % s.divider) :: posTrace (iterStep s r.1 r.2).1 rs = _
    rw [ih, List.length_cons, List.range_succ_eq_map, List.map_cons,
      List.map_map]
    congr 1
    apply List.map_congr_left
    intro k hk
    simp only [Function.comp_apply, iterStep_state, iterStep_divider,
      Nat.succ_eq_add_one]
    rw [Nat.add_assoc, Nat.mod_add_mod, Nat.add_comm 1 k]

/-- Over `d` consecutive steps, a cursor advancing by one modulo `d` takes
every value `j < d` exactly once. -/
theorem cycle_count (p d : Nat) (hd : 0 < d) (j : Nat) (hj : j < d) :
    ((List.range d).map (fun k => (p + k) % d)).count j = 1 := by
  have hb : p % d < d := Nat.mod_lt _ hd
  have hnd : ((List.range d).map (fun k => (p + k) % d)).Nodup := by
    apply List.Nodup.map_on ?_ (List.nodup_range d)
    intro k₁ h₁ k₂ h₂ heq
    rw [List.mem_range] at h₁ h₂
    have heq' : (p % d + k₁) % d = (p % d + k₂) % d := by
      rw [Nat.mod_add_mod, Nat.mod_add_mod]
      exact heq
    have e : ∀ k, k < d →
        (p % d + k) % d = if p % d + k < d then p % d + k else p % d + k - d := by
      intro k hk
      by_cases hc : p % d + k < d
      · rw [if_pos hc, Nat.mod_eq_of_lt hc]
      · rw [if_neg hc, Nat.mod_eq_sub_mod (by omega),
          Nat.mod_eq_of_lt (by omega)]
    rw [e k₁ h₁, e k₂ h₂] at heq'
    split_ifs at heq' <;> omega
  have hmem : j ∈ (List.range d).map (fun k => (p + k) % d) := by
    apply List.mem_map.mpr
    refine ⟨(j + d - p % d) % d, List.mem_range.mpr (Nat.mod_lt _ hd), ?_⟩
    rw [Nat.add_mod_mod, ← Nat.mod_add_mod]
    have harith : p % d + (j + d - p % d) = j + d := by omega
    rw [harith, Nat.add_mod_right, Nat.mod_eq_of_lt hj]
  exact List.count_eq_one_of_mem hnd hmem

/-! ## Claim theorems: MiniEpochSampler cursor (C3) -/

/-- **C3 counterexample.** The claim asserts `0 <= state_i < divider` also
after each `__iter__()` call returns.  The modulo reduction happens on entry,
not on exit: for `data_len = 1, mini_epoch_len = 2` the constructed sampler
has `divider = 1`, and after one completed `__iter__` call the stored cursor
is `state_i = 1`, which is not `< divider = 1`. -/
theorem miniEpoch_cursor_cex :
    (mkMiniEpochSampler 1 2 false Option.none).map
        (fun s => ((iterStep s [] []).1.state_i, (iterStep s [] []).1.divider))
      = .ok (1, 1) ∧ ¬ ((1 : Nat) < 1) :=
  ⟨rfl, by decide⟩

/-- **C3 (amended).** After each completed `__iter__()` call the stored
cursor is `state_i = (entry state_i % divider) + 1`, so it lies in
`[1, divider]` (it can equal `divider`); the invariant `0 <= state_i < divider`
holds for the *reduced* position the call actually slices with, the position
advances by exactly one modulo `divider` per call, and `divider` consecutive
calls visit every window position exactly once before repeating. -/
theorem miniEpoch_cursor (s : MiniEpochSampler) (perm draw : List Nat)
    (hd : 0 < s.divider) (rands : List (List Nat × List Nat))
    (hlen : rands.length = s.divider) :
    (iterStep s perm draw).1.state_i = s.state_i % s.divider + 1 ∧
    1 ≤ (iterStep s perm draw).1.state_i ∧
    (iterStep s perm draw).1.state_i ≤ s.divider ∧
    s.state_i % s.divider < s.divider ∧
    ∀ j < s.divider, (posTrace s rands).count j = 1 := by
  have hstate := iterStep_state s perm draw
  have hmod : s.state_i % s.divider < s.divider := Nat.mod_lt _ hd
  refine ⟨hstate, by omega, by omega, hmod, ?_⟩
  intro j hj
  rw [posTrace_eq, hlen]
  exact cycle_count s.state_i s.divider hd j hj

/-- Witness for the amended C3 at the fresh `data_len = 4, mini_epoch_len = 2`
state (`divider = 2`) and a run of 2 calls. -/
theorem miniEpoch_cursor_witness :
    ((0 : Nat) < 2 ∧ ([([], []), ([], [])] : List (List Nat × List Nat)).length = 2) ∧
    ((iterStep ⟨4, 2, Option.none, 2, 2, 4, 0, [0, 1, 2, 3], [0, 1, 2, 3]⟩
        [] []).1.state_i = 0 % 2 + 1 ∧
     1 ≤ (iterStep ⟨4, 2, Option.none, 2, 2, 4, 0, [0, 1, 2, 3], [0, 1, 2, 3]⟩
        [] []).1.state_i ∧
     (iterStep ⟨4, 2, Option.none, 2, 2, 4, 0, [0, 1, 2, 3], [0, 1, 2, 3]⟩
        [] []).1.state_i ≤ 2 ∧
     (0 : Nat) % 2 < 2 ∧
     ∀ j < 2, (posTrace ⟨4, 2, Option.none, 2, 2, 4, 0, [0, 1, 2, 3], [0, 1, 2, 3]⟩
        [([], []), ([], [])]).count j = 1) :=
  ⟨⟨by decide, rfl⟩,
    miniEpoch_cursor ⟨4, 2, Option.none, 2, 2, 4, 0, [0, 1, 2, 3], [0, 1, 2, 3]⟩
      [] [] (by decide) [([], []), ([], [])] rfl⟩

/-! ## Helper lemmas: MiniEpochSampler runs -/

theorem runIter_state (s : MiniEpochSampler) (rands : List (List Nat × List Nat))
    (hne : rands ≠ []) :
    (runIter s rands).1.state_i
      = (s.state_i + (rands.length - 1)) % s.divider + 1 := by
  induction rands generalizing s with
  | nil => exact absurd rfl hne
  | cons r rs ih =>
    show (runIter (iterStep s r.1 r.2).1 rs).1.state_i = _
    cases rs with
    | nil =>
      show (iterStep s r.1 r.2).1.state_i = _
      rw [iterStep_state]
      simp
    | cons r2 rs2 =>
      rw [ih _ (by simp), iterStep_state, iterStep_divider]
      simp only [List.length_cons, Nat.add_sub_cancel]
      congr 1
      rw [Nat.add_assoc, Nat.mod_add_mod, Nat.add_comm 1 rs2.length]

/-- With shuffle policy `None` the index array never changes, so the windows
of a run are the slices of `np.arange(data_len)` at the successive cursor
positions. -/
theorem runIter_windows_none (s : MiniEpochSampler)
    (rands : List (List Nat × List Nat))
    (hshuf : s.shuffle_type = Option.none)
    (hind : s.indices = List.range s.data_len) :
    (runIter s rands).2
      = (List.range rands.length).map (fun k =>
          windowAt s.data_len s.mini_epoch_len s.steps s.end_pointer
            ((s.state_i + k) % s.divider)) := by
  induction rands generalizing s with
  | nil => rfl
  | cons r rs ih =>
    show (iterStep s r.1 r.2).2 :: (runIter (iterStep s r.1 r.2).1 rs).2 = _
    rw [iterStep_none s r.1 r.2 hshuf]
    dsimp only
    rw [List.length_cons, List.range_succ_eq_map, List.map_cons, List.map_map]
    congr 1
    · simp [windowAt, hind]
    · rw [ih _ (by simpa using hshuf) (by simpa using hind)]
      dsimp only
      apply List.map_congr_left
      intro k hk
      simp only [Function.comp_apply, Nat.succ_eq_add_one]
      congr 1
      rw [Nat.add_assoc, Nat.mod_add_mod, Nat.add_comm 1 k]

theorem mem_flatten_map_range (f : Nat → List Nat) (n x : Nat) :
    x ∈ ((List.range n).map f).flatten ↔ ∃ k, k < n ∧ x ∈ f k := by
  rw [List.mem_flatten]
  constructor
  · rintro ⟨l, hl, hx⟩
    rcases List.mem_map.mp hl with ⟨k, hk, rfl⟩
    exact ⟨k, List.mem_range.mp hk, hx⟩
  · rintro ⟨k, hk, hx⟩
    exact ⟨f k, List.mem_map.mpr ⟨k, List.mem_range.mpr hk, rfl⟩, hx⟩

/-- Membership in the window at cursor position `k`. -/
theorem mem_windowAt {d m q ep k x : Nat} :
    x ∈ windowAt d m q ep k ↔
      k * m ≤ x ∧
      x < min (max (k * m) (if k = q then ep else (k + 1) * m)) d := by
  unfold windowAt
  rw [mem_drop_take_range]
  by_cases hk : k = q
  · simp only [if_pos hk]
    omega
  · simp only [if_neg hk]
    omega

/-! ## Claim theorems: MiniEpochSampler window cycle (C4) -/

/-- **C4 counterexample.** The claim demands that the `divider` windows of one
cycle cover every index `0..data_len-1` for *all* `(data_len, window_len,
drop_last)`.  With `data_len = 3, mini_epoch_len = 2, drop_last = true,
shuffle = None`: `steps = 1`, the remainder exists, so `divider = 1`, and the
single window of the cycle is `[0, 1]` — index `2 < 3` is never emitted, so
coverage fails (while the same claim also asserts the remainder window is
never produced, the two demands are contradictory). -/
theorem miniEpoch_coverage_cex :
    (mkMiniEpochSampler 3 2 true Option.none).map
        (fun s => (s.divider, (runIter s [([], [])]).2.flatten)) = .ok (1, [0, 1]) ∧
    (2 : Nat) < 3 ∧ (2 : Nat) ∉ ([0, 1] : List Nat) :=
  ⟨rfl, by decide, by decide⟩

/-- **C4 (amended).** For shuffle policy `None` and any
`(data_len, window_len, drop_last)` with `data_len ≥ 1`, `window_len ≥ 1`:
one cycle of `divider` consecutive `__iter__` calls emits exactly `divider`
windows and brings the cursor position back to 0; the union of those windows
is exactly the initial segment `[0, steps*window_len)` when `drop_last = true`
with a non-zero remainder and `steps ≥ 1` (the remainder window is dropped,
so coverage fails there), and exactly the whole universe `[0, data_len)` in
every other case — in particular, when `steps = 0` the single window *is* the
(clamped) remainder, even with `drop_last = true`. -/
theorem miniEpoch_cycle_coverage (d m : Nat) (drop : Bool)
    (hd : 1 ≤ d) (hm : 1 ≤ m)
    (S : MiniEpochSampler) (hS : mkMiniEpochSampler d m drop Option.none = .ok S)
    (rands : List (List Nat × List Nat)) (hlen : rands.length = S.divider) :
    (runIter S rands).2.length = S.divider ∧
    (runIter S rands).1.state_i % S.divider = 0 ∧
    ∀ x, (x ∈ (runIter S rands).2.flatten ↔
       x < (if drop = true ∧ 0 < d % m ∧ 1 ≤ d / m then (d / m) * m else d)) := by
  simp only [mkMiniEpochSampler] at hS
  rw [if_pos (Or.inl trivial)] at hS
  injection hS with h
  subst h
  dsimp only at hlen ⊢
  set dv := (if d / m = 0 then 1
    else if 0 < d - d / m * m ∧ drop = false then d / m + 1 else d / m) with hdv
  have hq : d / m * m ≤ d := Nat.div_mul_le_self d m
  have hqd : m * (d / m) + d % m = d := Nat.div_add_mod d m
  have hmm : m * (d / m) = d / m * m := Nat.mul_comm _ _
  have hmod : d % m < m := Nat.mod_lt _ hm
  have hdvpos : 0 < dv := by
    rw [hdv]
    by_cases h0 : d / m = 0
    · rw [if_pos h0]
      omega
    · rw [if_neg h0]
      by_cases h1 : 0 < d - d / m * m ∧ drop = false
      · rw [if_pos h1]
        exact Nat.succ_pos _
      · rw [if_neg h1]
        exact Nat.pos_of_ne_zero h0
  have hne : rands ≠ [] := by
    intro h
    rw [h] at hlen
    simp at hlen
    omega
  refine ⟨?_, ?_, ?_⟩
  · rw [runIter_windows_none _ _ rfl rfl]
    simp [hlen]
  · rw [runIter_state _ _ hne]
    dsimp only
    rw [hlen]
    have h1 : (dv - 1) % dv = dv - 1 := Nat.mod_eq_of_lt (by omega)
    have h2 : dv - 1 + 1 = dv := by omega
    rw [Nat.zero_add, h1, h2, Nat.mod_self]
  · intro x
    rw [runIter_windows_none _ _ rfl rfl]
    dsimp only
    rw [hlen, mem_flatten_map_range]
    have hWin : ∀ k, k < dv →
        ((0 + k) % dv = k) := by
      intro k hk
      rw [Nat.zero_add, Nat.mod_eq_of_lt hk]
    by_cases hq0 : d / m = 0
    · -- steps = 0: divider = 1, single clamped window = the whole universe
      have hdlt : d < m := (Nat.div_eq_zero_iff hm).mp hq0
      have hdv1 : dv = 1 := by rw [hdv, if_pos hq0]
      rw [if_neg (by rintro ⟨-, -, h1q⟩; omega)]
      constructor
      · rintro ⟨k, hk, hx⟩
        rw [hWin k hk] at hx
        rw [mem_windowAt] at hx
        omega
      · intro hx
        refine ⟨0, by omega, ?_⟩
        rw [hWin 0 (by omega), mem_windowAt, if_pos hq0.symm]
        omega
    · have hq1 : 1 ≤ d / m := Nat.pos_of_ne_zero hq0
      have hmd : m ≤ d := by
        have h1m := Nat.mul_le_mul_right m hq1
        rw [Nat.one_mul] at h1m
        omega
      by_cases hr : 0 < d % m
      · cases drop with
        | false =>
          -- remainder, keep last window: divider = steps + 1, full coverage
          have hdvq : dv = d / m + 1 := by
            rw [hdv, if_neg hq0, if_pos ⟨by omega, rfl⟩]
          rw [if_neg (by simp)]
          constructor
          · rintro ⟨k, hk, hx⟩
            rw [hWin k hk, mem_windowAt] at hx
            omega
          · intro hx
            by_cases hxq : x < d / m * m
            · have hkq : x / m < d / m := (Nat.div_lt_iff_lt_mul hm).mpr hxq
              refine ⟨x / m, by omega, ?_⟩
              rw [hWin _ (by omega), mem_windowAt, if_neg (by omega)]
              have e1 : (x / m + 1) * m = x / m * m + m := Nat.succ_mul _ _
              have e2 : x / m * m ≤ x := Nat.div_mul_le_self x m
              have e3 : m * (x / m) + x % m = x := Nat.div_add_mod x m
              have e4 : m * (x / m) = x / m * m := Nat.mul_comm _ _
              have e5 : x % m < m := Nat.mod_lt _ hm
              have e6 : (x / m + 1) * m ≤ d / m * m :=
                Nat.mul_le_mul_right m (by omega)
              omega
            · refine ⟨d / m, by omega, ?_⟩
              rw [hWin _ (by omega), mem_windowAt, if_pos rfl]
              omega
        | true =>
          -- remainder with drop_last: divider = steps, union = [0, steps*m)
          have hdvq : dv = d / m := by
            rw [hdv, if_neg hq0, if_neg (by rintro ⟨-, hcontra⟩; simp at hcontra)]
          rw [if_pos (by exact ⟨rfl, hr, hq1⟩)]
          constructor
          · rintro ⟨k, hk, hx⟩
            rw [hWin k hk, mem_windowAt, if_neg (by omega)] at hx
            have e1 : (k + 1) * m = k * m + m := Nat.succ_mul _ _
            have e6 : (k + 1) * m ≤ d / m * m := Nat.mul_le_mul_right m (by omega)
            omega
          · intro hx
            have hkq : x / m < d / m := (Nat.div_lt_iff_lt_mul hm).mpr hx
            refine ⟨x / m, by omega, ?_⟩
            rw [hWin _ (by omega), mem_windowAt, if_neg (by omega)]
            have e1 : (x / m + 1) * m = x / m * m + m := Nat.succ_mul _ _
            have e2 : x / m * m ≤ x := Nat.div_mul_le_self x m
            have e3 : m * (x / m) + x % m = x := Nat.div_add_mod x m
            have e4 : m * (x / m) = x / m * m := Nat.mul_comm _ _
            have e5 : x % m < m := Nat.mod_lt _ hm
            have e6 : (x / m + 1) * m ≤ d / m * m :=
              Nat.mul_le_mul_right m (by omega)
            omega
      · -- no remainder: divider = steps, full coverage
        have hdvq : dv = d / m := by
          rw [hdv, if_neg hq0, if_neg (by rintro ⟨h1, -⟩; omega)]
        rw [if_neg (by rintro ⟨-, h1, -⟩; omega)]
        constructor
        · rintro ⟨k, hk, hx⟩
          rw [hWin k hk, mem_windowAt] at hx
          omega
        · intro hx
          have hxq : x < d / m * m := by omega
          have hkq : x / m < d / m := (Nat.div_lt_iff_lt_mul hm).mpr hxq
          refine ⟨x / m, by omega, ?_⟩
          rw [hWin _ (by omega), mem_windowAt, if_neg (by omega)]
          have e1 : (x / m + 1) * m = x / m * m + m := Nat.succ_mul _ _
          have e2 : x / m * m ≤ x := Nat.div_mul_le_self x m
          have e3 : m * (x / m) + x % m = x := Nat.div_add_mod x m
          have e4 : m * (x / m) = x / m * m := Nat.mul_comm _ _
          have e5 : x % m < m := Nat.mod_lt _ hm
          have e6 : (x / m + 1) * m ≤ d / m * m :=
            Nat.mul_le_mul_right m (by omega)
          omega

/-- Witness for the amended C4 at `data_len = 5, mini_epoch_len = 2,
drop_last = false` (`steps = 2`, remainder exists, `divider = 3`) over one
cycle of 3 calls. -/
theorem miniEpoch_cycle_coverage_witness :
    ((1 : Nat) ≤ 5 ∧ (1 : Nat) ≤ 2 ∧
     mkMiniEpochSampler 5 2 false Option.none
       = .ok ⟨5, 2, Option.none, 2, 3, 5, 0, [0, 1, 2, 3, 4], [0, 1, 2, 3, 4]⟩ ∧
     ([([], []), ([], []), ([], [])] : List (List Nat × List Nat)).length
       = (⟨5, 2, Option.none, 2, 3, 5, 0, [0, 1, 2, 3, 4],
           [0, 1, 2, 3, 4]⟩ : MiniEpochSampler).divider) ∧
    ((runIter ⟨5, 2, Option.none, 2, 3, 5, 0, [0, 1, 2, 3, 4], [0, 1, 2, 3, 4]⟩
        [([], []), ([], []), ([], [])]).2.length
      = (⟨5, 2, Option.none, 2, 3, 5, 0, [0, 1, 2, 3, 4],
          [0, 1, 2, 3, 4]⟩ : MiniEpochSampler).divider ∧
     (runIter ⟨5, 2, Option.none, 2, 3, 5, 0, [0, 1, 2, 3, 4], [0, 1, 2, 3, 4]⟩
        [([], []), ([], []), ([], [])]).1.state_i
       % (⟨5, 2, Option.none, 2, 3, 5, 0, [0, 1, 2, 3, 4],
           [0, 1, 2, 3, 4]⟩ : MiniEpochSampler).divider = 0 ∧
     ∀ x, (x ∈ (runIter ⟨5, 2, Option.none, 2, 3, 5, 0, [0, 1, 2, 3, 4],
          [0, 1, 2, 3, 4]⟩ [([], []), ([], []), ([], [])]).2.flatten ↔
       x < (if false = true ∧ 0 < 5 % 2 ∧ 1 ≤ 5 / 2 then (5 / 2) * 2 else 5))) :=
  ⟨⟨by decide, by decide, rfl, rfl⟩,
    miniEpoch_cycle_coverage 5 2 false (by decide) (by decide)
      ⟨5, 2, Option.none, 2, 3, 5, 0, [0, 1, 2, 3, 4], [0, 1, 2, 3, 4]⟩ rfl
      [([], []), ([], []), ([], [])] rfl⟩

/-! ## Helper lemmas: DynamicLenBatchSampler -/

theorem sum_set_nat (l : List Nat) (n v : Nat) (hn : n < l.length) :
    (l.set n v).sum + l.getD n 0 = l.sum + v := by
  induction l generalizing n with
  | nil => simp at hn
  | cons a t ih =>
    cases n with
    | zero => simp [Nat.add_comm, Nat.add_assoc, Nat.add_left_comm]
    | succ n' =>
      simp only [List.set, List.getD_cons_succ, List.sum_cons]
      have := ih n' (by simpa using hn)
      omega

/-- Invariant of the streaming loop: with all keys in range it never errors,
keeps exactly 100 buckets, conserves the total index count between buckets
and emitted batches, and emits only batches of exactly `batch_size`. -/
theorem dlRun_spec (B : Nat) (zeros : Nat → Nat) :
    ∀ (idxs : List Nat) (st : List (List Nat) × List (List Nat)),
      st.1.length = 100 →
      (∀ i ∈ idxs, bucketKey (zeros i) < 100) →
      ∃ st', dlRun B zeros st idxs = .ok st' ∧
        st'.1.length = 100 ∧
        (st'.1.map List.length).sum + (st'.2.map List.length).sum
          = (st.1.map List.length).sum + (st.2.map List.length).sum
            + idxs.length ∧
        ∀ b ∈ st'.2, b ∈ st.2 ∨ b.length = B := by
  intro idxs
  induction idxs with
  | nil =>
    intro st h100 hkeys
    exact ⟨st, rfl, h100, by simp, fun b hb => Or.inl hb⟩
  | cons i t ih =>
    intro st h100 hkeys
    have hkey : bucketKey (zeros i) < st.1.length := by
      rw [h100]
      exact hkeys i (by simp)
    have hkeymap : bucketKey (zeros i) < (st.1.map List.length).length := by
      simpa using hkey
    have hgetd : (st.1.map List.length).getD (bucketKey (zeros i)) 0
        = (st.1.getD (bucketKey (zeros i)) []).length := by
      rw [List.getD_eq_getElem _ _ hkeymap, List.getD_eq_getElem _ _ hkey,
        List.getElem_map]
    have hblen : (st.1.getD (bucketKey (zeros i)) [] ++ [i]).length
        = (st.1.getD (bucketKey (zeros i)) []).length + 1 := by simp
    by_cases hflush : (st.1.getD (bucketKey (zeros i)) [] ++ [i]).length = B
    · have hstep : dlStep B zeros st i
          = .ok (st.1.set (bucketKey (zeros i)) [],
                 st.2 ++ [st.1.getD (bucketKey (zeros i)) [] ++ [i]]) := by
        simp only [dlStep]
        rw [if_pos hkey, if_pos hflush]
      obtain ⟨st', hrun, h100', hsum', hall'⟩ :=
        ih (st.1.set (bucketKey (zeros i)) [],
            st.2 ++ [st.1.getD (bucketKey (zeros i)) [] ++ [i]])
          (by simpa using h100) (fun j hj => hkeys j (by simp [hj]))
      refine ⟨st', ?_, h100', ?_, ?_⟩
      · show dlRun B zeros st (i :: t) = .ok st'
        simp only [dlRun, hstep]
        exact hrun
      · rw [hsum']
        have hset := sum_set_nat (st.1.map List.length) (bucketKey (zeros i)) 0
          hkeymap
        rw [hgetd] at hset
        have hnew1 : ((st.1.set (bucketKey (zeros i)) []).map List.length).sum
            = ((st.1.map List.length).set (bucketKey (zeros i)) 0).sum := by
          rw [List.map_set]
          rfl
        have hnew2 : (((st.2 ++ [st.1.getD (bucketKey (zeros i)) [] ++ [i]]).map
              List.length).sum)
            = (st.2.map List.length).sum
              + ((st.1.getD (bucketKey (zeros i)) []).length + 1) := by
          rw [List.map_append, List.sum_append]
          simp
        dsimp only
        rw [hnew1, hnew2]
        have hB' : (st.1.getD (bucketKey (zeros i)) []).length + 1 = B := by
          rw [← hblen]
          exact hflush
        simp only [List.length_cons]
        omega
      · intro b hb
        rcases hall' b hb with hmem | hlen
        · rcases List.mem_append.mp hmem with h2 | h2
          · exact Or.inl h2
          · right
            have hbeq : b = st.1.getD (bucketKey (zeros i)) [] ++ [i] := by
              simpa using h2
            rw [hbeq]
            exact hflush
        · exact Or.inr hlen
    · have hstep : dlStep B zeros st i
          = .ok (st.1.set (bucketKey (zeros i))
                   (st.1.getD (bucketKey (zeros i)) [] ++ [i]), st.2) := by
        simp only [dlStep]
        rw [if_pos hkey, if_neg hflush]
      obtain ⟨st', hrun, h100', hsum', hall'⟩ :=
        ih (st.1.set (bucketKey (zeros i))
              (st.1.getD (bucketKey (zeros i)) [] ++ [i]), st.2)
          (by simpa using h100) (fun j hj => hkeys j (by simp [hj]))
      refine ⟨st', ?_, h100', ?_, ?_⟩
      · show dlRun B zeros st (i :: t) = .ok st'
        simp only [dlRun, hstep]
        exact hrun
      · rw [hsum']
        have hset := sum_set_nat (st.1.map List.length) (bucketKey (zeros i))
          ((st.1.getD (bucketKey (zeros i)) [] ++ [i]).length) hkeymap
        rw [hgetd] at hset
        have hnew1 : ((st.1.set (bucketKey (zeros i))
              (st.1.getD (bucketKey (zeros i)) [] ++ [i])).map List.length).sum
            = ((st.1.map List.length).set (bucketKey (zeros i))
                ((st.1.getD (bucketKey (zeros i)) [] ++ [i]).length)).sum := by
          rw [List.map_set]
        dsimp only
        rw [hnew1]
        simp only [List.length_cons]
        omega
      · exact fun b hb => hall' b hb

/-- Invariant of the leftover re-chunking loop: it conserves the index count,
keeps the trailing batch strictly shorter than `batch_size`, and emits only
batches of exactly `batch_size`. -/
theorem leftoverChunks_spec (B : Nat) (hB : 1 ≤ B) :
    ∀ (leftover : List Nat) (acc : List (List Nat) × List Nat),
      acc.2.length < B → (∀ b ∈ acc.1, b.length = B) →
      B * (leftover.foldl (chunkStep B) acc).1.length
          + (leftover.foldl (chunkStep B) acc).2.length
        = B * acc.1.length + acc.2.length + leftover.length ∧
      (leftover.foldl (chunkStep B) acc).2.length < B ∧
      ∀ b ∈ (leftover.foldl (chunkStep B) acc).1, b.length = B := by
  intro leftover
  induction leftover with
  | nil =>
    intro acc h1 h2
    exact ⟨by simp, h1, h2⟩
  | cons i t ih =>
    intro acc h1 h2
    rw [List.foldl_cons]
    by_cases hflush : (acc.2 ++ [i]).length = B
    · have hstep : chunkStep B acc i = (acc.1 ++ [acc.2 ++ [i]], []) := by
        simp only [chunkStep]
        rw [if_pos hflush]
      rw [hstep]
      obtain ⟨hsum, hlt, hall⟩ := ih (acc.1 ++ [acc.2 ++ [i]], [])
        (by simpa using hB)
        (by
          intro b hb
          rcases List.mem_append.mp hb with h | h
          · exact h2 b h
          · have hbeq : b = acc.2 ++ [i] := by simpa using h
            rw [hbeq]
            exact hflush)
      refine ⟨?_, hlt, hall⟩
      rw [hsum]
      dsimp only
      have hlen2 : acc.2.length + 1 = B := by
        rw [← hflush]
        simp
      have hmul : B * (acc.1 ++ [acc.2 ++ [i]]).length
          = B * acc.1.length + B := by
        rw [List.length_append]
        simp [Nat.mul_add]
      simp only [List.length_cons, List.length_nil]
      omega
    · have hstep : chunkStep B acc i = (acc.1, acc.2 ++ [i]) := by
        simp only [chunkStep]
        rw [if_neg hflush]
      rw [hstep]
      have hlen2 : (acc.2 ++ [i]).length = acc.2.length + 1 := by simp
      obtain ⟨hsum, hlt, hall⟩ := ih (acc.1, acc.2 ++ [i])
        (by dsimp only; omega) h2
      refine ⟨?_, hlt, hall⟩
      rw [hsum]
      dsimp only
      simp only [List.length_cons]
      omega

/-! ## Claim theorems: DynamicLenBatchSampler (C5, C6) -/

/-- **C5 counterexample.** The claim quantifies over *every* element content.
An element whose zero count is `6400` gives bucket key `100`, so
`buckets[100]` raises `IndexError` during iteration: zero batches are yielded
(not the one consumed index), and the end-of-iteration assertion is never
reached, refuting the totals/assertion claim as universally stated. -/
theorem dynamic_totals_cex :
    dynamicIter 1 false (fun _ => 6400) [0] = .error "IndexError" ∧
    ([0] : List Nat).length = 1 :=
  ⟨rfl, rfl⟩

/-- **C5 (amended).** For every finite wrapped stream whose elements all have
bucket key below 100, and every `batch_size ≥ 1`: the iteration succeeds; with
`drop_last = false` the total index count across all yielded batches equals
the count consumed from the wrapped sampler, and with `drop_last = true` it
equals that count minus the size of the final partial chunk (`n % batch_size`);
and the number of yielded batches equals `len(self)`, so the end-of-iteration
assertion is satisfied. -/
theorem dynamic_totals (B : Nat) (dropLast : Bool) (zeros : Nat → Nat)
    (idxs : List Nat) (hB : 1 ≤ B)
    (hkeys : ∀ i ∈ idxs, bucketKey (zeros i) < 100) :
    ∃ batches, dynamicIter B dropLast zeros idxs = .ok batches ∧
      (batches.map List.length).sum
        = (if dropLast then idxs.length - idxs.length % B else idxs.length) ∧
      batches.length = dynamicLen B dropLast idxs.length := by
  obtain ⟨st, hrun, h100, hsum, hall⟩ :=
    dlRun_spec B zeros idxs (List.replicate 100 [], []) (by simp) hkeys
  have hinit1 : ((List.replicate 100 ([] : List Nat)).map List.length).sum
      = 0 := by simp
  have hinit2 : (([] : List (List Nat)).map List.length).sum = 0 := rfl
  rw [hinit1, hinit2] at hsum
  have hallB : ∀ b ∈ st.2, b.length = B := by
    intro b hb
    rcases hall b hb with h | h
    · simp at h
    · exact h
  have hsum2 : (st.2.map List.length).sum = B * st.2.length := by
    have hcongr : st.2.map List.length = st.2.map (fun _ => B) :=
      List.map_congr_left (fun b hb => hallB b hb)
    rw [hcongr, sum_map_const, Nat.mul_comm]
  have hflat : st.1.flatten.length = (st.1.map List.length).sum :=
    List.length_flatten st.1
  obtain ⟨hcsum, hclt, hcall⟩ :=
    leftoverChunks_spec B hB st.1.flatten ([], []) (by simpa using hB)
      (by intro b hb; simp at hb)
  have hLC : leftoverChunks B st.1.flatten
      = st.1.flatten.foldl (chunkStep B) ([], []) := rfl
  rw [← hLC] at hcsum hclt hcall
  dsimp only [List.length_nil] at hcsum
  have hiter : dynamicIter B dropLast zeros idxs
      = .ok (st.2 ++ if 0 < (leftoverChunks B st.1.flatten).2.length
          ∧ dropLast = false
        then (leftoverChunks B st.1.flatten).1
          ++ [(leftoverChunks B st.1.flatten).2]
        else (leftoverChunks B st.1.flatten).1) := by
    simp only [dynamicIter, hrun]
  set k := st.2.length with hk
  set f := (leftoverChunks B st.1.flatten).1.length with hf
  set r := (leftoverChunks B st.1.flatten).2.length with hr
  have hN : B * (k + f) + r = idxs.length := by
    have hmul : B * (k + f) = B * k + B * f := Nat.mul_add B k f
    omega
  have hmodN : idxs.length % B = r := by
    rw [← hN, Nat.mul_add_mod]
    exact Nat.mod_eq_of_lt hclt
  have hdivN : idxs.length / B = k + f := by
    rw [← hN, Nat.mul_add_div (by omega), Nat.div_eq_of_lt hclt]
    omega
  have hsumbatches : ∀ (bs : List (List Nat)), (∀ b ∈ bs, b.length = B) →
      (bs.map List.length).sum = B * bs.length := by
    intro bs hbs
    rw [List.map_congr_left (fun b hb => hbs b hb), sum_map_const,
      Nat.mul_comm]
  refine ⟨_, hiter, ?_, ?_⟩
  · -- total index count
    rw [List.map_append, List.sum_append, hsum2]
    have hmul : B * (k + f) = B * k + B * f := Nat.mul_add B k f
    have e7 : B * (leftoverChunks B st.1.flatten).1.length = B * f := by
      rw [← hf]
    by_cases hcond : 0 < r ∧ dropLast = false
    · rw [if_pos hcond, List.map_append, List.sum_append, hsumbatches _ hcall]
      have e8 : (([(leftoverChunks B st.1.flatten).2]).map List.length).sum
          = r := by
        simp [← hr]
      rw [hcond.2]
      simp only [Bool.false_eq_true, if_false]
      omega
    · rw [if_neg hcond, hsumbatches _ hcall]
      cases dropLast with
      | false =>
        have hr0 : r = 0 := by
          rcases Nat.eq_zero_or_pos r with h | h
          · exact h
          · exact absurd ⟨h, rfl⟩ hcond
        simp only [Bool.false_eq_true, if_false]
        omega
      | true =>
        rw [if_pos rfl]
        omega
  · -- batch count equals len(self)
    rw [List.length_append]
    unfold dynamicLen
    have e7 : (leftoverChunks B st.1.flatten).1.length = f := hf.symm
    by_cases hcond : 0 < r ∧ dropLast = false
    · rw [if_pos hcond, List.length_append, hcond.2]
      simp only [Bool.false_eq_true, if_false]
      have hceil : (idxs.length + B - 1) / B = k + f + 1 := by
        have e1 : idxs.length + B - 1 = B * (k + f) + (r + B - 1) := by omega
        rw [e1, Nat.mul_add_div (by omega)]
        have e2 : r + B - 1 = B + (r - 1) := by omega
        rw [e2, Nat.add_div_left _ (by omega), Nat.div_eq_of_lt (by omega)]
      rw [hceil]
      simp only [List.length_cons, List.length_nil]
      omega
    · rw [if_neg hcond]
      cases dropLast with
      | false =>
        have hr0 : r = 0 := by
          rcases Nat.eq_zero_or_pos r with h | h
          · exact h
          · exact absurd ⟨h, rfl⟩ hcond
        simp only [Bool.false_eq_true, if_false]
        have hceil : (idxs.length + B - 1) / B = k + f := by
          have e1 : idxs.length + B - 1 = B * (k + f) + (B - 1) := by omega
          rw [e1, Nat.mul_add_div (by omega), Nat.div_eq_of_lt (by omega)]
          omega
        rw [hceil]
      | true =>
        rw [if_pos rfl, hdivN]

/-- Witness for the amended C5 at `batch_size = 2, drop_last = false`,
stream `[0, 1, 2]`, all zero counts 0. -/
theorem dynamic_totals_witness :
    ((1 : Nat) ≤ 2 ∧ ∀ i ∈ ([0, 1, 2] : List Nat), bucketKey 0 < 100) ∧
    (∃ batches, dynamicIter 2 false (fun _ => 0) [0, 1, 2] = .ok batches ∧
      (batches.map List.length).sum
        = (if false then ([0, 1, 2] : List Nat).length
            - ([0, 1, 2] : List Nat).length % 2
           else ([0, 1, 2] : List Nat).length) ∧
      batches.length = dynamicLen 2 false ([0, 1, 2] : List Nat).length) :=
  ⟨⟨by decide, by decide⟩,
    dynamic_totals 2 false (fun _ => 0) [0, 1, 2] (by decide) (by decide)⟩

/-- **C6 counterexample.** The claim says the bucket key is *capped* to the
100 buckets so the append never goes out of range.  There is no cap in the
code: an element with zero count `6400` has key `6400 / 64 = 100`, and
`buckets[100]` raises `IndexError`. -/
theorem bucket_key_cap_cex :
    ¬ (bucketKey 6400 < 100) ∧
    dynamicIter 2 true (fun _ => 6464) [3] = .error "IndexError" :=
  ⟨by decide, rfl⟩

/-- **C6 (amended).** The bucket key is the element's zero count divided by
64, with no cap: the bucket-array access stays in range exactly when the zero
count is below `6400`, and a streaming step errors (`IndexError`) exactly
when the derived key is at least 100. -/
theorem bucket_key_range (z : Nat) (B : Nat) (zeros : Nat → Nat)
    (st : List (List Nat) × List (List Nat)) (idx : Nat)
    (h100 : st.1.length = 100) :
    (bucketKey z < 100 ↔ z < 6400) ∧
    ((dlStep B zeros st idx).isOk = false ↔ 100 ≤ bucketKey (zeros idx)) := by
  constructor
  · unfold bucketKey
    rw [Nat.div_lt_iff_lt_mul (by omega)]
  · by_cases hk : bucketKey (zeros idx) < 100
    · have hok : (dlStep B zeros st idx).isOk = true := by
        simp only [dlStep]
        rw [if_pos (by rw [h100]; exact hk)]
        split <;> rfl
      constructor
      · intro h
        rw [hok] at h
        cases h
      · intro h
        omega
    · have herr : (dlStep B zeros st idx).isOk = false := by
        simp only [dlStep]
        rw [if_neg (by rw [h100]; exact hk)]
        rfl
      exact ⟨fun _ => Nat.not_lt.mp hk, fun _ => herr⟩

/-- Witness for the amended C6 at zero count `64`, fresh buckets, key 0. -/
theorem bucket_key_range_witness :
    ((List.replicate 100 ([] : List Nat), ([] : List (List Nat))).1.length
        = 100) ∧
    ((bucketKey 64 < 100 ↔ (64 : Nat) < 6400) ∧
     ((dlStep 2 (fun _ => 0)
        (List.replicate 100 ([] : List Nat), ([] : List (List Nat))) 0).isOk
          = false ↔ 100 ≤ bucketKey 0)) :=
  ⟨by simp,
    bucket_key_range 64 2 (fun _ => 0)
      (List.replicate 100 ([] : List Nat), ([] : List (List Nat))) 0 (by simp)⟩

/-! ## Helper lemmas: DistributedSamplerWrapper -/

theorem flatMap_cons_perm {α β : Type} (l : List β) (a : β → α)
    (t : β → List α) :
    List.Perm (l.flatMap (fun r => a r :: t r)) (l.map a ++ l.flatMap t) := by
  induction l with
  | nil => simp
  | cons b bl ih =>
    rw [List.flatMap_cons, List.map_cons, List.flatMap_cons, List.cons_append,
      List.cons_append]
    apply List.Perm.cons
    have h1 : List.Perm (t b ++ bl.flatMap (fun r => a r :: t r))
        (t b ++ (bl.map a ++ bl.flatMap t)) := List.Perm.append_left _ ih
    have h2 : List.Perm (t b ++ (bl.map a ++ bl.flatMap t))
        ((bl.map a ++ bl.flatMap t) ++ t b) := List.perm_append_comm
    have h3 : (bl.map a ++ bl.flatMap t) ++ t b
        = bl.map a ++ (bl.flatMap t ++ t b) := List.append_assoc _ _ _
    have h4 : List.Perm (bl.map a ++ (bl.flatMap t ++ t b))
        (bl.map a ++ (t b ++ bl.flatMap t)) :=
      List.Perm.append_left _ List.perm_append_comm
    exact h1.trans (h2.trans (h3 ▸ h4))

theorem map_getD_range_eq_take (xs : List Nat) (n : Nat) (hn : n ≤ xs.length) :
    (List.range n).map (fun r => xs.getD r 0) = xs.take n := by
  apply List.ext_getElem
  · simp [hn]
  · intro i h1 h2
    rw [List.getElem_map, List.getElem_range, List.getElem_take]
    rw [List.getD_eq_getElem _ _ (by simp at h1; omega)]

/-- The per-rank strided selections over a list of length `ns * num_replicas`
jointly form a permutation of the list: the selection is a transpose of the
`ns × num_replicas` round matrix. -/
theorem stride_transpose_perm (n : Nat) :
    ∀ (ns : Nat) (xs : List Nat), xs.length = ns * n →
      List.Perm ((List.range n).flatMap (fun r => strideSelect r n ns xs))
        xs := by
  intro ns
  induction ns with
  | zero =>
    intro xs hxs
    have hnil : xs = [] := List.eq_nil_of_length_eq_zero (by omega)
    subst hnil
    simp [strideSelect]
  | succ ns ih =>
    intro xs hxs
    have hn_le : n ≤ xs.length := by
      rw [hxs]
      calc n = 1 * n := (Nat.one_mul n).symm
        _ ≤ (ns + 1) * n := Nat.mul_le_mul_right n (by omega)
    have hdrop_len : (xs.drop n).length = ns * n := by
      rw [List.length_drop, hxs, Nat.succ_mul]
      omega
    have hstride : (fun r => strideSelect r n (ns + 1) xs)
        = fun r => xs.getD r 0 :: strideSelect r n ns (xs.drop n) := by
      funext r
      unfold strideSelect
      rw [List.range_succ_eq_map, List.map_cons, List.map_map]
      congr 1
      · simp
      · apply List.map_congr_left
        intro k hk
        simp only [Function.comp_apply, Nat.succ_eq_add_one]
        rw [List.getD_eq_getElem?_getD, List.getD_eq_getElem?_getD,
          List.getElem?_drop]
        have hidx : r + (k + 1) * n = n + (r + k * n) := by
          rw [Nat.succ_mul]
          omega
        rw [hidx]
    rw [hstride]
    have hperm1 := flatMap_cons_perm (List.range n) (fun r => xs.getD r 0)
      (fun r => strideSelect r n ns (xs.drop n))
    have hmap_take : (List.range n).map (fun r => xs.getD r 0) = xs.take n :=
      map_getD_range_eq_take xs n hn_le
    rw [hmap_take] at hperm1
    have h2 : List.Perm
        (xs.take n ++ (List.range n).flatMap
          (fun r => strideSelect r n ns (xs.drop n)))
        (xs.take n ++ xs.drop n) :=
      List.Perm.append_left _ (ih (xs.drop n) hdrop_len)
    have h3 : xs.take n ++ xs.drop n = xs := List.take_append_drop n xs
    rw [h3] at h2
    exact hperm1.trans h2

/-! ## Claim theorems: DistributedSamplerWrapper (C9, C10) -/

/-- **C10.** Whenever the distributed partitioning assigns exactly one
position to the local replica (`ceil(len / num_replicas) = 1`, e.g. a
single-index wrapped sampler with `num_replicas = 1`),
`DistributedSamplerWrapper.__iter__` raises `TypeError` instead of returning a
one-element sequence: `itemgetter` applied to a single position returns the
scalar element rather than a tuple, and `iter(scalar)` raises. -/
theorem wrapper_single_position_type_error (vals : List Nat) (n rank : Nat)
    (perm : List Nat)
    (h1 : (vals.length + n - 1) / n = 1) :
    wrapperIter vals n rank perm = .error "TypeError" := by
  unfold wrapperIter distributedPositions strideSelect
  rw [h1]
  rw [show List.range 1 = [0] from rfl, List.map_cons, List.map_nil]

/-- Witness for C10 at a one-element wrapped sampler and one replica. -/
theorem wrapper_single_position_type_error_witness :
    (([42] : List Nat).length + 1 - 1) / 1 = 1 ∧
    wrapperIter [42] 1 0 [0] = .error "TypeError" :=
  ⟨by decide, wrapper_single_position_type_error [42] 1 0 [0] (by decide)⟩

/-- **C9 counterexample.** The claim quantifies over *every* wrapped sampler
length and every `num_replicas ≥ 1`.  For a wrapped sampler of length 1 with
`num_replicas = 1` the partition assigns one position to rank 0, so
`__iter__` raises `TypeError` and rank 0 receives no sequence at all — there
is nothing whose multiset union could reconstruct the output. -/
theorem distributed_union_cex :
    wrapperIter [7] 1 0 [0] = .error "TypeError" ∧ (1 : Nat) ≤ 1 :=
  ⟨rfl, by decide⟩

/-- **C9 (amended).** For every materialized pass `vals` of the wrapped
sampler with `num_replicas < len` (so each rank gets at least two positions
and `itemgetter` returns a tuple), and every position permutation `perm` of
the pass: each rank `0..num_replicas-1` receives a sequence of exactly
`ceil(len / num_replicas)` values; the multiset union of all ranks' sequences
is exactly the padding-extended output (the `perm`-ordered values extended by
repetition to `ceil(len/num_replicas) * num_replicas` entries); and the
`perm`-ordered values are themselves a permutation of the full pass `vals`. -/
theorem distributed_union (vals : List Nat) (n : Nat) (perm : List Nat)
    (hn : 1 ≤ n) (hlen : n < vals.length)
    (hperm : List.Perm perm (List.range vals.length)) :
    (∀ rank, rank < n → ∃ out, wrapperIter vals n rank perm = .ok out ∧
        out.length = (vals.length + n - 1) / n) ∧
    List.Perm
      ((List.range n).flatMap (fun rank =>
        (wrapperIter vals n rank perm).toOption.getD []))
      ((paddedPositions vals.length n perm).map (fun p => vals.getD p 0)) ∧
    (paddedPositions vals.length n perm).length
      = ((vals.length + n - 1) / n) * n ∧
    List.Perm (perm.map (fun p => vals.getD p 0)) vals := by
  have hpermlen : perm.length = vals.length := by
    rw [hperm.length_eq, List.length_range]
  have hdm : n * ((vals.length + n - 1) / n) + (vals.length + n - 1) % n
      = vals.length + n - 1 := Nat.div_add_mod _ n
  have hmm : n * ((vals.length + n - 1) / n)
      = ((vals.length + n - 1) / n) * n := Nat.mul_comm _ _
  have hmodlt : (vals.length + n - 1) % n < n := Nat.mod_lt _ (by omega)
  have hns2 : 2 ≤ (vals.length + n - 1) / n := by
    rw [Nat.le_div_iff_mul_le (by omega)]
    omega
  have hlen_le : vals.length ≤ ((vals.length + n - 1) / n) * n := by omega
  have hpad_le : ((vals.length + n - 1) / n) * n - vals.length ≤ perm.length := by
    omega
  have hpadded_len : (paddedPositions vals.length n perm).length
      = ((vals.length + n - 1) / n) * n := by
    unfold paddedPositions
    rw [List.length_append, List.length_take, hpermlen]
    omega
  have hplen : ∀ rank, (distributedPositions vals.length n rank perm).length
      = (vals.length + n - 1) / n := by
    intro rank
    unfold distributedPositions strideSelect
    simp
  have hpoint : ∀ rank, wrapperIter vals n rank perm
      = .ok ((distributedPositions vals.length n rank perm).map
          (fun p => vals.getD p 0)) := by
    intro rank
    obtain ⟨p1, p2, rest, hps⟩ : ∃ p1 p2 rest,
        distributedPositions vals.length n rank perm = p1 :: p2 :: rest := by
      have hl := hplen rank
      cases hcase : distributedPositions vals.length n rank perm with
      | nil =>
        rw [hcase] at hl
        simp at hl
        omega
      | cons p1 tl =>
        cases tl with
        | nil =>
          rw [hcase] at hl
          simp at hl
          omega
        | cons p2 rest => exact ⟨p1, p2, rest, rfl⟩
    unfold wrapperIter
    rw [hps]
  refine ⟨?_, ?_, hpadded_len, ?_⟩
  · intro rank hrank
    refine ⟨_, hpoint rank, ?_⟩
    rw [List.length_map]
    exact hplen rank
  · have hunion : (List.range n).flatMap (fun rank =>
        (wrapperIter vals n rank perm).toOption.getD [])
        = ((List.range n).flatMap (fun rank =>
            distributedPositions vals.length n rank perm)).map
          (fun p => vals.getD p 0) := by
      rw [List.map_flatMap]
      apply List.flatMap_congr ?_
      intro rank hrank
      rw [hpoint rank]
      rfl
    rw [hunion]
    apply List.Perm.map
    exact stride_transpose_perm n ((vals.length + n - 1) / n)
      (paddedPositions vals.length n perm) hpadded_len
  · have hvals : (List.range vals.length).map (fun p => vals.getD p 0)
        = vals := by
      have := map_getD_range_eq_take vals vals.length (Nat.le_refl _)
      rwa [List.take_length] at this
    have h := hperm.map (fun p => vals.getD p 0)
    rwa [hvals] at h

/-- Witness for the amended C9 at `len = 10, num_replicas = 3` (per-rank size
`ceil(10/3) = 4`, padded total `12`, i.e. 2 padded repeats). -/
theorem distributed_union_witness :
    ((1 : Nat) ≤ 3 ∧ (3 : Nat) < ([20, 21, 22, 23, 24, 25, 26, 27, 28, 29] : List Nat).length ∧
     List.Perm (List.range 10)
       (List.range ([20, 21, 22, 23, 24, 25, 26, 27, 28, 29] : List Nat).length)) ∧
    ((∀ rank, rank < 3 → ∃ out,
        wrapperIter [20, 21, 22, 23, 24, 25, 26, 27, 28, 29] 3 rank
          (List.range 10) = .ok out ∧
        out.length
          = (([20, 21, 22, 23, 24, 25, 26, 27, 28, 29] : List Nat).length
              + 3 - 1) / 3) ∧
     List.Perm
       ((List.range 3).flatMap (fun rank =>
         (wrapperIter [20, 21, 22, 23, 24, 25, 26, 27, 28, 29] 3 rank
           (List.range 10)).toOption.getD []))
       ((paddedPositions
           ([20, 21, 22, 23, 24, 25, 26, 27, 28, 29] : List Nat).length 3
           (List.range 10)).map
         (fun p => ([20, 21, 22, 23, 24, 25, 26, 27, 28, 29] : List Nat).getD p 0)) ∧
     (paddedPositions
         ([20, 21, 22, 23, 24, 25, 26, 27, 28, 29] : List Nat).length 3
         (List.range 10)).length
       = ((([20, 21, 22, 23, 24, 25, 26, 27, 28, 29] : List Nat).length
           + 3 - 1) / 3) * 3 ∧
     List.Perm
       ((List.range 10).map
         (fun p => ([20, 21, 22, 23, 24, 25, 26, 27, 28, 29] : List Nat).getD p 0))
       [20, 21, 22, 23, 24, 25, 26, 27, 28, 29]) :=
  ⟨⟨by decide, by decide, List.Perm.refl _⟩,
    distributed_union [20, 21, 22, 23, 24, 25, 26, 27, 28, 29] 3
      (List.range 10) (by decide) (by decide) (List.Perm.refl _)⟩

end Catalyst
